import Mathlib

set_option maxHeartbeats 1000000

namespace LoadBalancerModel

/- Shallow embedding of the load_balancer repository:
   - internal/backend: BackendServer (URL, IsAlive, activeConns with mutex)
   - src/internal/balancer/balancer.go: LoadBalancer, NewLoadBalancer (proxy
     ErrorHandler retry chain), GetNextBackend with its three strategy methods,
     ServeHTTP, CheckBackendHealth, RunHealthChecks
   - src/internal/balancer/algorithms.go: BalancingAlgorithm enum and the
     Algorithm interface implementations (RoundRobinAlgo and friends)
   - src/internal/config/config.go: MustLoad
   Machine integers: the round-robin cursor is a Go uint64, modelled as Nat
   taken modulo U64 = 2 ^ 64 at each increment; the least-connections sentinel
   is the largest Go int, 2 ^ 63 - 1. -/

def U64 : Nat := 2 ^ 64

/-- Initial minConns sentinel in the least-connections scan:
Go writes it int(^uint(0) >> 1), the largest 64-bit int. -/
def maxGoInt : Int := 2 ^ 63 - 1

/-- BackendServer (internal/backend). The URL is abstracted to a numeric id;
activeConns is a Go int, modelled as an unbounded Int (the code performs only
increments and decrements that this development tracks exactly). -/
structure Backend where
  url : Nat
  alive : Bool
  conns : Int
deriving DecidableEq

/-- BalancingAlgorithm enum (algorithms.go). -/
inductive BalancingAlgorithm where
  | RoundRobin
  | LeastConnections
  | Random
deriving DecidableEq

/-- LoadBalancer state (balancer.go): the fixed backend list, the shared
round-robin cursor (Go uint64, field current), and the configured algorithm. -/
structure LB where
  backends : List Backend
  current : Nat
  algorithm : BalancingAlgorithm
deriving DecidableEq

/-- NewLoadBalancer's algorithm-string dispatch: "random" and
"leastconnections" are recognised, everything else falls back to round robin. -/
def parseAlgorithm (s : String) : BalancingAlgorithm :=
  if s = "random" then .Random
  else if s = "leastconnections" then .LeastConnections
  else .RoundRobin

/-- Point update of one list entry; entries past the end are left alone.
Used to model in-place mutation of one BackendServer through its pointer. -/
def updateAt (f : Backend → Backend) : List Backend → Nat → List Backend
  | [], _ => []
  | b :: rest, 0 => f b :: rest
  | b :: rest, n + 1 => b :: updateAt f rest n

/-- The ErrorHandler's mark-dead loop: it scans lb.backends for the entry whose
URL pointer equals the failed proxy's parsedUrl and sets IsAlive = false.
Each BackendServer holds exactly the pointer it was built from, so the loop
hits precisely the failed backend; we model it by its index. -/
def markDead (lb : LB) (idx : Nat) : LB :=
  { lb with backends := updateAt (fun b => { b with alive := false }) lb.backends idx }

/-- backend.IncrementConn on the backend at idx. -/
def incConn (lb : LB) (idx : Nat) : LB :=
  { lb with backends := updateAt (fun b => { b with conns := b.conns + 1 }) lb.backends idx }

/-- backend.DecrementConn on the backend at idx. -/
def decConn (lb : LB) (idx : Nat) : LB :=
  { lb with backends := updateAt (fun b => { b with conns := b.conns - 1 }) lb.backends idx }

/-- Active-connection count of the backend at index j (0 past the end). -/
def connsAt (lb : LB) (j : Nat) : Int :=
  match lb.backends[j]? with
  | some b => b.conns
  | none => 0

/-- Number of alive backends. -/
def aliveCount (l : List Backend) : Nat :=
  (l.filter (fun b => b.alive)).length

/-- getRoundRobinBackend's for-loop (balancer.go:135-159). One call scans at
most len(backends) candidates, so fuel = backends.length suffices; cursor
arithmetic is uint64, taken mod U64, and the Go expression current-start is
uint64 wraparound subtraction. Returns (selected index if any, new cursor). -/
def rrScan (backends : List Backend) (start : Nat) : Nat → Nat → Option Nat × Nat
  | 0, current => (none, current)
  | fuel + 1, current =>
    let idx := current % backends.length
    match backends[idx]? with
    | none => (none, current)
    | some b =>
      if b.alive then (some idx, (current + 1) % U64)
      else
        let current' := (current + 1) % U64
        if backends.length ≤ (current' + U64 - start) % U64 then (none, current')
        else rrScan backends start fuel current'

/-- getRoundRobinBackend (balancer.go:135-159): empty list is rejected up
front, then the circular scan starts at the shared cursor. -/
def getRoundRobinBackend (backends : List Backend) (current : Nat) : Option Nat × Nat :=
  if backends.length = 0 then (none, current)
  else rrScan backends current backends.length current

/-- getLeastBusyBackend's range-loop (balancer.go:92-114): dead backends are
skipped, a strictly smaller count replaces the running minimum, ties keep the
earlier backend. i is the index of the head of the remaining list. The same
fold is LeastConnectionsAlgo.GetNextBackend in algorithms.go:65-87. -/
def leastBusyGo : List Backend → Nat → Option Nat → Int → Option Nat
  | [], _, best, _ => best
  | b :: rest, i, best, minConns =>
    if b.alive = false then leastBusyGo rest (i + 1) best minConns
    else if b.conns < minConns then leastBusyGo rest (i + 1) (some i) b.conns
    else leastBusyGo rest (i + 1) best minConns

/-- getLeastBusyBackend (balancer.go:92-114), returning the index of the
selected backend. -/
def getLeastBusyBackend (backends : List Backend) : Option Nat :=
  leastBusyGo backends 0 none maxGoInt

/-- Indices of the alive backends, in configured order: the available slice
built by getRandomBackend (balancer.go:117-132), tracked by original index. -/
def aliveIndices : List Backend → Nat → List Nat
  | [], _ => []
  | b :: rest, i =>
    if b.alive then i :: aliveIndices rest (i + 1) else aliveIndices rest (i + 1)

/-- getRandomBackend (balancer.go:117-132): filter to alive backends, return
nil if none, else index uniformly via rng.Intn(len(available)). The draw of
the time-seeded generator is modelled by the argument r; every value rng.Intn
can produce is r % len(available) for some r. -/
def getRandomBackend (backends : List Backend) (r : Nat) : Option Nat :=
  let available := aliveIndices backends 0
  if available.length = 0 then none
  else available[r % available.length]?

/-- GetNextBackend (balancer.go:77-90): dispatch on the configured algorithm
under the balancer mutex. Only the round-robin branch touches balancer state
(the cursor). r feeds the random branch's generator draw. -/
def GetNextBackend (lb : LB) (r : Nat) : Option Nat × LB :=
  match lb.algorithm with
  | .LeastConnections => (getLeastBusyBackend lb.backends, lb)
  | .Random => (getRandomBackend lb.backends r, lb)
  | .RoundRobin =>
    let p := getRoundRobinBackend lb.backends lb.current
    (p.1, { lb with current := p.2 })

/-- n consecutive round-robin selections through getRoundRobinBackend,
threading the shared cursor. -/
def rrSelections (backends : List Backend) (current : Nat) : Nat → List (Option Nat) × Nat
  | 0 => ([], current)
  | n + 1 =>
    let p := getRoundRobinBackend backends current
    let q := rrSelections backends p.2 n
    (p.1 :: q.1, q.2)

/-- A sequence of GetNextBackend calls (one random draw per call), collecting
the selections and threading the balancer state. -/
def selectionTrace : LB → List Nat → List (Option Nat) × LB
  | lb, [] => ([], lb)
  | lb, r :: rs =>
    let p := GetNextBackend lb r
    let q := selectionTrace p.2 rs
    (p.1 :: q.1, q.2)

/-- Client-visible outcome of one dispatched request. -/
inductive Outcome where
  | served (idx : Nat)
  | unavailable
deriving DecidableEq

/-- Result of the forwarding chain: final balancer state, outcome, and the
forwarding attempts made, each recorded with the balancer state in which the
forward was issued. -/
structure ChainResult where
  lb : LB
  outcome : Outcome
  attempts : List (Nat × LB)
deriving DecidableEq

/-- The proxy ErrorHandler (balancer.go:41-66), which is installed on every
backend's ReverseProxy and therefore recurses when a retried forward fails in
turn: mark the failed backend dead, call GetNextBackend, and either forward to
the returned backend (whose own ErrorHandler handles a further transport
failure) or answer 503. fails idx says whether forwarding to backend idx ends
in a transport error; rs supplies one random draw per selection. The handler
never touches any activeConns counter. Each recursion marks a previously alive
backend dead, so fuel = len(backends) + 1 never runs out. -/
def errorHandlerChain (fails : Nat → Bool) : Nat → LB → Nat → List Nat → ChainResult
  | 0, lb, failedIdx, _ =>
    { lb := markDead lb failedIdx, outcome := .unavailable, attempts := [] }
  | fuel + 1, lb, failedIdx, rs =>
    let lb₁ := markDead lb failedIdx
    match GetNextBackend lb₁ (rs.headD 0) with
    | (none, lb₂) => { lb := lb₂, outcome := .unavailable, attempts := [] }
    | (some j, lb₂) =>
      if fails j then
        let res := errorHandlerChain fails fuel lb₂ j rs.tail
        { res with attempts := (j, lb₂) :: res.attempts }
      else
        { lb := lb₂, outcome := .served j, attempts := [(j, lb₂)] }

/-- ServeHTTP (balancer.go:161-182): select a backend (503 if none), increment
its counter, forward with the deferred decrement running after the proxy call
- including any ErrorHandler retries - completes. -/
def serveHTTP (fails : Nat → Bool) (lb : LB) (r : Nat) (rs : List Nat) : ChainResult :=
  match GetNextBackend lb r with
  | (none, lb₁) => { lb := lb₁, outcome := .unavailable, attempts := [] }
  | (some i, lb₁) =>
    let lb₂ := incConn lb₁ i
    if fails i then
      let res := errorHandlerChain fails (lb.backends.length + 1) lb₂ i rs
      { lb := decConn res.lb i, outcome := res.outcome, attempts := (i, lb₂) :: res.attempts }
    else
      { lb := decConn lb₂ i, outcome := .served i, attempts := [(i, lb₂)] }

/-- Outcome of one health probe issued by CheckBackendHealth's client.Get:
whether the connection failed outright, how many seconds it took, and the
status code it would deliver. -/
structure ProbeResult where
  connError : Bool
  elapsedSec : Nat
  status : Nat
deriving DecidableEq

/-- client.Get with Timeout: 5 * time.Second returns an error when the
transport fails or the 5-second deadline passes, else the response status. -/
def probeCompletes (p : ProbeResult) : Option Nat :=
  if p.connError || decide (5 ≤ p.elapsedSec) then none else some p.status

/-- CheckBackendHealth (balancer.go:184-200): false on any probe error,
else StatusCode < http.StatusBadRequest (400). -/
def CheckBackendHealth (p : ProbeResult) : Bool :=
  match probeCompletes p with
  | none => false
  | some status => decide (status < 400)

/-- One backend's update inside RunHealthChecks' tick (balancer.go:202-231):
the flag is rewritten exactly when the fresh classification differs. -/
def healthTickBackend (b : Backend) (p : ProbeResult) : Backend :=
  let wasAlive := b.alive
  let nowAlive := CheckBackendHealth p
  if wasAlive ≠ nowAlive then { b with alive := nowAlive } else b

/-- The per-tick sweep over all backends; probes gives the probe outcome for
the backend at each index this tick. -/
def healthSweep (probes : Nat → ProbeResult) : List Backend → Nat → List Backend
  | [], _ => []
  | b :: rest, i => healthTickBackend b (probes i) :: healthSweep probes rest (i + 1)

/-- One tick of RunHealthChecks under lb.mu: every configured backend is
probed, independent of its current liveness. -/
def runHealthChecksTick (lb : LB) (probes : Nat → ProbeResult) : LB :=
  { lb with backends := healthSweep probes lb.backends 0 }

/-- Result of RoundRobinAlgo.GetNextBackend (algorithms.go:41-61): a found
index, the nil no-backend sentinel, or a runtime panic (crash). -/
inductive AlgoResult where
  | crash
  | noBackend
  | found (idx : Nat)
deriving DecidableEq

/-- The loop of RoundRobinAlgo.GetNextBackend (algorithms.go:41-61). Unlike
getRoundRobinBackend, its exit test is a.current == start after the increment,
which on uint64 arithmetic only fires once the cursor has wrapped all the way
around 2 ^ 64. The second component counts the candidates scanned. The loop
needs at most U64 iterations, so fuel = U64 covers every real execution. -/
def rrAlgoLoop (backends : List Backend) : Nat → Nat → Nat → AlgoResult × Nat
  | 0, _, _ => (.noBackend, 0)
  | fuel + 1, current, start =>
    match backends[current % backends.length]? with
    | none => (.crash, 0)
    | some b =>
      let current' := (current + 1) % U64
      if b.alive then (.found (current % backends.length), 1)
      else if current' = start then (.noBackend, 1)
      else
        let p := rrAlgoLoop backends fuel current' start
        (p.1, p.2 + 1)

/-- RoundRobinAlgo.GetNextBackend (algorithms.go:41-61): there is no empty
check, so backends[a.current%uint64(len(backends))] divides by zero and
panics on an empty slice. -/
def rrAlgoGetNext (backends : List Backend) (current : Nat) : AlgoResult × Nat :=
  if backends.length = 0 then (.crash, 0)
  else rrAlgoLoop backends U64 current current

/-- A backend as assembled by NewLoadBalancer's construction loop
(balancer.go:34-75): the parse result of its configured address (none when
url.Parse failed, in which case parsedUrl is nil) and IsAlive: true. -/
structure ConstructedBackend where
  url : Option Nat
  alive : Bool
deriving DecidableEq

/-- NewLoadBalancer's backend-construction loop: a url.Parse failure is only
logged (balancer.go:36-38) and the loop continues, appending a BackendServer
for every configured address, parse failure or not. -/
def newBackends (parses : List (Option Nat)) : List ConstructedBackend :=
  parses.map (fun p => { url := p, alive := true })

/-- The backend at index j exists and is currently alive. -/
def aliveAt (lb : LB) (j : Nat) : Prop :=
  ∃ b, lb.backends[j]? = some b ∧ b.alive = true

/-- The backend at index j exists and is currently marked dead. -/
def deadAt (lb : LB) (j : Nat) : Prop :=
  ∃ b, lb.backends[j]? = some b ∧ b.alive = false

/-- Startup outcome of config.MustLoad. -/
inductive LoadOutcome where
  | fatal
  | loaded
deriving DecidableEq

/-- config.MustLoad (config.go:15-21): a cleanenv.ReadConfig error (none)
hits log.Fatalf, which terminates the process. -/
def mustLoad (readResult : Option (List String)) : LoadOutcome :=
  match readResult with
  | none => .fatal
  | some _ => .loaded

/-! Point-update and frame lemmas. -/

theorem updateAt_getElem (f : Backend → Backend) :
    ∀ (l : List Backend) (n k : Nat),
      (updateAt f l n)[k]? = if k = n then Option.map f l[k]? else l[k]?
  | [], n, k => by cases n <;> cases k <;> simp [updateAt]
  | b :: rest, 0, 0 => by simp [updateAt]
  | b :: rest, 0, k + 1 => by simp [updateAt]
  | b :: rest, n + 1, 0 => by simp [updateAt]
  | b :: rest, n + 1, k + 1 => by
      simpa [updateAt] using updateAt_getElem f rest n k

theorem connsAt_markDead (lb : LB) (i j : Nat) :
    connsAt (markDead lb i) j = connsAt lb j := by
  unfold connsAt markDead
  simp only [updateAt_getElem]
  by_cases h : j = i
  · subst h; cases lb.backends[j]? <;> simp
  · simp [h]

theorem markDead_getElem_other (lb : LB) {i j : Nat} (h : j ≠ i) :
    (markDead lb i).backends[j]? = lb.backends[j]? := by
  unfold markDead
  simp [updateAt_getElem, h]

theorem markDead_getElem_self (lb : LB) {i : Nat} {b : Backend}
    (h : lb.backends[i]? = some b) :
    (markDead lb i).backends[i]? = some { b with alive := false } := by
  unfold markDead
  simp [updateAt_getElem, h]

theorem deadAt_markDead (lb : LB) {i k : Nat} (h : deadAt lb k) :
    deadAt (markDead lb i) k := by
  obtain ⟨b, hb, hdead⟩ := h
  by_cases hk : k = i
  · subst hk
    exact ⟨{ b with alive := false }, markDead_getElem_self lb hb, rfl⟩
  · exact ⟨b, by rw [markDead_getElem_other lb hk]; exact hb, hdead⟩

theorem deadAt_markDead_self (lb : LB) {i : Nat} {b : Backend}
    (h : lb.backends[i]? = some b) : deadAt (markDead lb i) i :=
  ⟨{ b with alive := false }, markDead_getElem_self lb h, rfl⟩

theorem connsAt_incConn_self (lb : LB) {i : Nat} {b : Backend}
    (h : lb.backends[i]? = some b) :
    connsAt (incConn lb i) i = connsAt lb i + 1 := by
  unfold connsAt incConn
  simp [updateAt_getElem, h]

theorem connsAt_incConn_other (lb : LB) {i j : Nat} (h : j ≠ i) :
    connsAt (incConn lb i) j = connsAt lb j := by
  unfold connsAt incConn
  simp [updateAt_getElem, h]

theorem connsAt_decConn_self (lb : LB) {i : Nat} {b : Backend}
    (h : lb.backends[i]? = some b) :
    connsAt (decConn lb i) i = connsAt lb i - 1 := by
  unfold connsAt decConn
  simp [updateAt_getElem, h]

theorem connsAt_decConn (lb : LB) (i j : Nat) :
    connsAt (decConn lb i) j = connsAt lb j ∨
      connsAt (decConn lb i) j = connsAt lb j - 1 := by
  unfold connsAt decConn
  simp only [updateAt_getElem]
  by_cases h : j = i
  · subst h
    cases lb.backends[j]? with
    | none => simp
    | some b => exact Or.inr (by simp)
  · simp [h]

theorem getElem_incConn (lb : LB) (i j : Nat) :
    (incConn lb i).backends[j]? =
      if j = i then Option.map (fun b => { b with conns := b.conns + 1 }) lb.backends[j]?
      else lb.backends[j]? := by
  unfold incConn
  simp [updateAt_getElem]

theorem getElem_decConn (lb : LB) (i j : Nat) :
    (decConn lb i).backends[j]? =
      if j = i then Option.map (fun b => { b with conns := b.conns - 1 }) lb.backends[j]?
      else lb.backends[j]? := by
  unfold decConn
  simp [updateAt_getElem]

theorem aliveCount_updateAt_of_alive_eq (f : Backend → Backend)
    (hf : ∀ b, (f b).alive = b.alive) :
    ∀ (l : List Backend) (n : Nat), aliveCount (updateAt f l n) = aliveCount l
  | [], n => by cases n <;> rfl
  | b :: rest, 0 => by
      simp only [updateAt, aliveCount, List.filter]
      rw [hf b]
      cases b.alive <;> simp [aliveCount]
  | b :: rest, n + 1 => by
      simp only [updateAt, aliveCount, List.filter]
      cases b.alive <;>
        simpa [aliveCount] using aliveCount_updateAt_of_alive_eq f hf rest n

theorem aliveCount_updateAt_dead :
    ∀ (l : List Backend) (n : Nat) (b : Backend), l[n]? = some b → b.alive = true →
      aliveCount (updateAt (fun x => { x with alive := false }) l n) + 1 = aliveCount l
  | [], n, b => by intro h; simp at h
  | x :: rest, 0, b => by
      intro h halive
      simp only [List.getElem?_cons_zero, Option.some.injEq] at h
      subst h
      simp [updateAt, aliveCount, List.filter, halive]
  | x :: rest, n + 1, b => by
      intro h halive
      simp only [List.getElem?_cons_succ] at h
      have := aliveCount_updateAt_dead rest n b h halive
      simp only [updateAt, aliveCount, List.filter]
      cases x.alive <;> simpa [aliveCount] using this

theorem aliveCount_markDead (lb : LB) {i : Nat} {b : Backend}
    (h : lb.backends[i]? = some b) (halive : b.alive = true) :
    aliveCount (markDead lb i).backends + 1 = aliveCount lb.backends :=
  aliveCount_updateAt_dead lb.backends i b h halive

theorem aliveCount_pos_of_aliveAt {lb : LB} {j : Nat} (h : aliveAt lb j) :
    0 < aliveCount lb.backends := by
  obtain ⟨b, hb, halive⟩ := h
  have hmem : b ∈ lb.backends := List.getElem?_mem hb
  have : b ∈ lb.backends.filter (fun x => x.alive) :=
    List.mem_filter.mpr ⟨hmem, by simp [halive]⟩
  have := List.length_pos.mpr (List.ne_nil_of_mem this)
  simpa [aliveCount] using this

/-! Soundness of the three selection strategies: only alive backends come back. -/

theorem rrScan_some_alive (bs : List Backend) (start : Nat) :
    ∀ (fuel cur idx : Nat), (rrScan bs start fuel cur).1 = some idx →
      ∃ b, bs[idx]? = some b ∧ b.alive = true
  | 0, cur, idx => by simp [rrScan]
  | fuel + 1, cur, idx => by
      intro h
      rw [rrScan] at h
      cases hget : bs[cur % bs.length]? with
      | none => rw [hget] at h; simp at h
      | some b =>
        rw [hget] at h
        cases hb : b.alive with
        | true =>
          simp only [hb, if_true, Option.some.injEq] at h
          exact ⟨b, h ▸ hget, hb⟩
        | false =>
          simp only [hb, Bool.false_eq_true, if_false] at h
          split at h
          · simp at h
          · exact rrScan_some_alive bs start fuel _ idx h

theorem getRoundRobin_some_alive (bs : List Backend) (cur idx : Nat)
    (h : (getRoundRobinBackend bs cur).1 = some idx) :
    ∃ b, bs[idx]? = some b ∧ b.alive = true := by
  unfold getRoundRobinBackend at h
  split at h
  · simp at h
  · exact rrScan_some_alive bs cur bs.length cur idx h

theorem rrScan_cursor (bs : List Backend) (start : Nat) :
    ∀ (fuel cur : Nat), cur < U64 →
      ∃ k, k ≤ fuel ∧ (rrScan bs start fuel cur).2 = (cur + k) % U64 ∧
        (0 < fuel → 0 < bs.length → 1 ≤ k)
  | 0, cur => fun hcur =>
      ⟨0, Nat.le_refl 0, by simp [rrScan, Nat.mod_eq_of_lt hcur], by omega⟩
  | fuel + 1, cur => by
      intro hcur
      by_cases hlen : bs.length = 0
      · have hempty : bs = [] := List.length_eq_zero.mp hlen
        refine ⟨0, Nat.zero_le _, ?_, by omega⟩
        simp [rrScan, hempty, Nat.mod_eq_of_lt hcur]
      · have hidx : cur % bs.length < bs.length := Nat.mod_lt _ (Nat.pos_of_ne_zero hlen)
        obtain ⟨b, hget⟩ : ∃ b, bs[cur % bs.length]? = some b := by
          rw [List.getElem?_eq_getElem hidx]; exact ⟨_, rfl⟩
        cases hb : b.alive with
        | true =>
          exact ⟨1, by omega, by simp [rrScan, hget, hb], fun _ _ => Nat.le_refl 1⟩
        | false =>
          by_cases hbrk : bs.length ≤ ((cur + 1) % U64 + U64 - start) % U64
          · exact ⟨1, by omega, by simp [rrScan, hget, hb, hbrk], fun _ _ => Nat.le_refl 1⟩
          · have hU : 0 < U64 := by unfold U64; positivity
            have hcur' : (cur + 1) % U64 < U64 := Nat.mod_lt _ hU
            obtain ⟨k, hk, hres, _⟩ := rrScan_cursor bs start fuel ((cur + 1) % U64) hcur'
            refine ⟨1 + k, by omega, ?_, by omega⟩
            have hstep : (rrScan bs start (fuel + 1) cur).2 =
                (rrScan bs start fuel ((cur + 1) % U64)).2 := by
              simp [rrScan, hget, hb, hbrk]
            rw [hstep, hres, Nat.mod_add_mod, Nat.add_assoc]

theorem getRoundRobin_cursor (bs : List Backend) (cur : Nat) (hcur : cur < U64) :
    ∃ k, k ≤ bs.length ∧ (getRoundRobinBackend bs cur).2 = (cur + k) % U64 ∧
      (0 < bs.length → 1 ≤ k) := by
  unfold getRoundRobinBackend
  split
  · next hlen =>
      exact ⟨0, Nat.zero_le _, by simp [Nat.mod_eq_of_lt hcur], fun h => by omega⟩
  · next hlen =>
      obtain ⟨k, hk, hres, hpos⟩ := rrScan_cursor bs cur bs.length cur hcur
      exact ⟨k, hk, hres, fun h => hpos h h⟩

theorem aliveIndices_mem :
    ∀ (l : List Backend) (i j : Nat), j ∈ aliveIndices l i →
      i ≤ j ∧ ∃ b, l[j - i]? = some b ∧ b.alive = true
  | [], i, j => by simp [aliveIndices]
  | b :: rest, i, j => by
      intro h
      cases hb : b.alive with
      | true =>
        rw [aliveIndices, hb] at h
        simp only [if_true, List.mem_cons] at h
        rcases h with h | h
        · subst h
          exact ⟨Nat.le_refl _, b, by simp, hb⟩
        · obtain ⟨hle, bb, hget, halive⟩ := aliveIndices_mem rest (i + 1) j h
          refine ⟨by omega, bb, ?_, halive⟩
          have hj : j - i = (j - (i + 1)) + 1 := by omega
          rw [hj, List.getElem?_cons_succ]
          exact hget
      | false =>
        rw [aliveIndices, hb] at h
        simp only [Bool.false_eq_true, if_false] at h
        obtain ⟨hle, bb, hget, halive⟩ := aliveIndices_mem rest (i + 1) j h
        refine ⟨by omega, bb, ?_, halive⟩
        have hj : j - i = (j - (i + 1)) + 1 := by omega
        rw [hj, List.getElem?_cons_succ]
        exact hget

theorem getRandom_some_alive (bs : List Backend) (r j : Nat)
    (h : getRandomBackend bs r = some j) :
    ∃ b, bs[j]? = some b ∧ b.alive = true := by
  simp only [getRandomBackend] at h
  split at h
  · simp at h
  · have hmem : j ∈ aliveIndices bs 0 := List.getElem?_mem h
    obtain ⟨_, b, hget, halive⟩ := aliveIndices_mem bs 0 j hmem
    exact ⟨b, by simpa using hget, halive⟩

/-! Specification of the least-connections fold. -/

theorem leastBusyGo_spec (bs : List Backend) :
    ∀ (rest : List Backend) (i : Nat) (best : Option Nat) (minC : Int),
      (∀ k, rest[k]? = bs[i + k]?) →
      bs.length = i + rest.length →
      (best = none → minC = maxGoInt ∧
        ∀ (k : Nat) (bk : Backend), k < i → bs[k]? = some bk → bk.alive = true → maxGoInt ≤ bk.conns) →
      (∀ (j : Nat), best = some j → j < i ∧ minC < maxGoInt ∧
        (∃ bj, bs[j]? = some bj ∧ bj.alive = true ∧ bj.conns = minC) ∧
        (∀ (k : Nat) (bk : Backend), k < i → bs[k]? = some bk → bk.alive = true → minC ≤ bk.conns) ∧
        (∀ (k : Nat) (bk : Backend), k < j → bs[k]? = some bk → bk.alive = true → minC < bk.conns)) →
      ((leastBusyGo rest i best minC = none →
          ∀ (k : Nat) (bk : Backend), bs[k]? = some bk → bk.alive = true → maxGoInt ≤ bk.conns) ∧
       (∀ (j : Nat), leastBusyGo rest i best minC = some j →
          ∃ bj, bs[j]? = some bj ∧ bj.alive = true ∧ bj.conns < maxGoInt ∧
            (∀ (k : Nat) (bk : Backend), bs[k]? = some bk → bk.alive = true → bj.conns ≤ bk.conns) ∧
            (∀ (k : Nat) (bk : Backend), k < j → bs[k]? = some bk → bk.alive = true → bj.conns < bk.conns)))
  | [], i, best, minC => by
      intro _ hlen hnone hsome
      have hlen0 : bs.length = i := by simpa using hlen
      have hout : ∀ k, i ≤ k → bs[k]? = none := fun k hk =>
        List.getElem?_eq_none (by omega)
      constructor
      · intro hres k bk hk halive
        have hki : k < i := by
          by_contra hge
          rw [hout k (by omega)] at hk
          exact Option.noConfusion hk
        rw [leastBusyGo] at hres
        exact (hnone hres).2 k bk hki hk halive
      · intro j hres
        rw [leastBusyGo] at hres
        obtain ⟨hji, hminC, ⟨bj, hbj, hbalive, hbconns⟩, hall, hfirst⟩ := hsome j hres
        refine ⟨bj, hbj, hbalive, by omega, ?_, ?_⟩
        · intro k bk hk halive
          have hki : k < i := by
            by_contra hge
            rw [hout k (by omega)] at hk
            exact Option.noConfusion hk
          rw [hbconns]
          exact hall k bk hki hk halive
        · intro k bk hkj hk halive
          rw [hbconns]
          exact hfirst k bk hkj hk halive
  | b :: rest, i, best, minC => by
      intro hk hlen hnone hsome
      have hbi : bs[i]? = some b := by
        have := hk 0
        simpa using this.symm
      have hk' : ∀ k, rest[k]? = bs[(i + 1) + k]? := by
        intro k
        have := hk (k + 1)
        simpa [Nat.add_assoc, Nat.add_comm 1 k] using this
      have hlen' : bs.length = (i + 1) + rest.length := by
        simp only [List.length_cons] at hlen; omega
      cases hb : b.alive with
      | false =>
        have hstep : leastBusyGo (b :: rest) i best minC = leastBusyGo rest (i + 1) best minC := by
          rw [leastBusyGo, hb]; simp
        rw [hstep]
        refine leastBusyGo_spec bs rest (i + 1) best minC hk' hlen' ?_ ?_
        · intro h
          obtain ⟨hminC, hprev⟩ := hnone h
          refine ⟨hminC, fun k bk hki hkk halive => ?_⟩
          rcases Nat.lt_or_ge k i with hlt | hge
          · exact hprev k bk hlt hkk halive
          · have : k = i := by omega
            subst this
            rw [hbi] at hkk
            cases hkk
            rw [hb] at halive
            exact absurd halive (by simp)
        · intro j h
          obtain ⟨hji, hminC, hex, hall, hfirst⟩ := hsome j h
          refine ⟨by omega, hminC, hex, fun k bk hki hkk halive => ?_, hfirst⟩
          rcases Nat.lt_or_ge k i with hlt | hge
          · exact hall k bk hlt hkk halive
          · have : k = i := by omega
            subst this
            rw [hbi] at hkk
            cases hkk
            rw [hb] at halive
            exact absurd halive (by simp)
      | true =>
        have hminC_le : minC ≤ maxGoInt := by
          cases hbest : best with
          | none => exact le_of_eq (hnone hbest).1
          | some j => exact le_of_lt (hsome j hbest).2.1
        by_cases hcmp : b.conns < minC
        · have hstep : leastBusyGo (b :: rest) i best minC =
              leastBusyGo rest (i + 1) (some i) b.conns := by
            rw [leastBusyGo, hb]
            simp [hcmp]
          rw [hstep]
          refine leastBusyGo_spec bs rest (i + 1) (some i) b.conns hk' hlen'
            (by intro h; exact Option.noConfusion h) ?_
          intro j h
          cases h
          refine ⟨by omega, by omega, ⟨b, hbi, hb, rfl⟩, ?_, ?_⟩
          · intro k bk hki hkk halive
            rcases Nat.lt_or_ge k i with hlt | hge
            · cases hbest : best with
              | none => exact le_trans (by omega) ((hnone hbest).2 k bk hlt hkk halive)
              | some j' => exact le_trans (by omega) ((hsome j' hbest).2.2.2.1 k bk hlt hkk halive)
            · have : k = i := by omega
              subst this
              rw [hbi] at hkk
              cases hkk
              exact le_refl _
          · intro k bk hki hkk halive
            cases hbest : best with
            | none => exact lt_of_lt_of_le (by omega) ((hnone hbest).2 k bk hki hkk halive)
            | some j' => exact lt_of_lt_of_le hcmp ((hsome j' hbest).2.2.2.1 k bk hki hkk halive)
        · have hstep : leastBusyGo (b :: rest) i best minC =
              leastBusyGo rest (i + 1) best minC := by
            rw [leastBusyGo, hb]
            simp [hcmp]
          rw [hstep]
          refine leastBusyGo_spec bs rest (i + 1) best minC hk' hlen' ?_ ?_
          · intro h
            obtain ⟨hminC, hprev⟩ := hnone h
            refine ⟨hminC, fun k bk hki hkk halive => ?_⟩
            rcases Nat.lt_or_ge k i with hlt | hge
            · exact hprev k bk hlt hkk halive
            · have : k = i := by omega
              subst this
              rw [hbi] at hkk
              cases hkk
              rw [hminC] at hcmp
              omega
          · intro j h
            obtain ⟨hji, hminC, hex, hall, hfirst⟩ := hsome j h
            refine ⟨by omega, hminC, hex, fun k bk hki hkk halive => ?_, hfirst⟩
            rcases Nat.lt_or_ge k i with hlt | hge
            · exact hall k bk hlt hkk halive
            · have : k = i := by omega
              subst this
              rw [hbi] at hkk
              cases hkk
              omega

theorem getLeastBusy_spec (bs : List Backend) :
    (getLeastBusyBackend bs = none →
      ∀ (k : Nat) (bk : Backend), bs[k]? = some bk → bk.alive = true → maxGoInt ≤ bk.conns) ∧
    (∀ (j : Nat), getLeastBusyBackend bs = some j →
      ∃ bj, bs[j]? = some bj ∧ bj.alive = true ∧ bj.conns < maxGoInt ∧
        (∀ (k : Nat) (bk : Backend), bs[k]? = some bk → bk.alive = true → bj.conns ≤ bk.conns) ∧
        (∀ (k : Nat) (bk : Backend), k < j → bs[k]? = some bk → bk.alive = true → bj.conns < bk.conns)) := by
  have := leastBusyGo_spec bs bs 0 none maxGoInt (by simp) (by simp)
    (fun _ => ⟨rfl, by omega⟩) (fun j h => Option.noConfusion h)
  exact this

theorem getLeastBusy_some_alive (bs : List Backend) (j : Nat)
    (h : getLeastBusyBackend bs = some j) :
    ∃ b, bs[j]? = some b ∧ b.alive = true := by
  obtain ⟨bj, hbj, halive, _⟩ := (getLeastBusy_spec bs).2 j h
  exact ⟨bj, hbj, halive⟩

/-! GetNextBackend frame and soundness. -/

theorem getNext_backends (lb : LB) (r : Nat) :
    ((GetNextBackend lb r).2).backends = lb.backends := by
  cases halg : lb.algorithm <;> simp [GetNextBackend, halg]

theorem getNext_frame_nonRR (lb : LB) (r : Nat)
    (h : lb.algorithm ≠ .RoundRobin) : (GetNextBackend lb r).2 = lb := by
  cases halg : lb.algorithm with
  | RoundRobin => exact absurd halg h
  | LeastConnections => simp [GetNextBackend, halg]
  | Random => simp [GetNextBackend, halg]

theorem getNext_alive (lb : LB) (r j : Nat)
    (h : (GetNextBackend lb r).1 = some j) : aliveAt lb j := by
  cases halg : lb.algorithm with
  | LeastConnections =>
    simp only [GetNextBackend, halg] at h
    exact getLeastBusy_some_alive lb.backends j h
  | Random =>
    simp only [GetNextBackend, halg] at h
    exact getRandom_some_alive lb.backends r j h
  | RoundRobin =>
    simp only [GetNextBackend, halg] at h
    exact getRoundRobin_some_alive lb.backends lb.current j h

theorem aliveAt_of_backends_eq {lb lb' : LB} (h : lb'.backends = lb.backends)
    {j : Nat} (ha : aliveAt lb' j) : aliveAt lb j := by
  obtain ⟨b, hb, halive⟩ := ha
  exact ⟨b, h ▸ hb, halive⟩

theorem selectionTrace_alive :
    ∀ (rs : List Nat) (lb : LB) (j : Nat),
      some j ∈ (selectionTrace lb rs).1 → aliveAt lb j
  | [], lb, j => by simp [selectionTrace]
  | r :: rs, lb, j => by
      intro h
      rw [selectionTrace] at h
      simp only [List.mem_cons] at h
      rcases h with h | h
      · exact getNext_alive lb r j h.symm
      · have := selectionTrace_alive rs (GetNextBackend lb r).2 j h
        exact aliveAt_of_backends_eq (getNext_backends lb r) this

/-- C4: every backend handed out by a selection call of any of the three
algorithms is alive at the moment of selection, and a backend whose flag is
false is never among the results of any number of consecutive selection calls
(whose only state effect is the round-robin cursor) until the flag changes. -/
theorem claim_C4_selection_returns_only_alive :
    (∀ (lb : LB) (r j : Nat), (GetNextBackend lb r).1 = some j → aliveAt lb j) ∧
    (∀ (lb : LB) (j : Nat) (b : Backend), lb.backends[j]? = some b → b.alive = false →
      ∀ (rs : List Nat), some j ∉ (selectionTrace lb rs).1) := by
  refine ⟨getNext_alive, ?_⟩
  intro lb j b hb hdead rs hmem
  obtain ⟨b', hb', halive⟩ := selectionTrace_alive rs lb j hmem
  rw [hb] at hb'
  cases hb'
  rw [hdead] at halive
  exact Bool.false_ne_true halive

/-- C4 witness: with backend 0 marked dead and backend 1 alive, three
consecutive round-robin selections never return backend 0. -/
theorem claim_C4_witness :
    some 0 ∉ (selectionTrace ⟨[⟨0, false, 0⟩, ⟨1, true, 0⟩], 0, .RoundRobin⟩ [0, 1, 2]).1 :=
  claim_C4_selection_returns_only_alive.2
    ⟨[⟨0, false, 0⟩, ⟨1, true, 0⟩], 0, .RoundRobin⟩ 0 ⟨0, false, 0⟩ rfl rfl [0, 1, 2]

/-- C10 (amended): GetNextBackend never changes any backend's alive flag or
connection counter; the LeastConnections and Random branches change no
balancer state at all; the RoundRobin branch changes only the cursor,
advancing it by at most len(backends) steps modulo 2^64 (at least one step
when backends exist), so it never decreases unless the uint64 increment wraps
past 2^64. -/
theorem claim_C10_selection_frame :
    (∀ (lb : LB) (r : Nat), ((GetNextBackend lb r).2).backends = lb.backends) ∧
    (∀ (lb : LB) (r : Nat), lb.algorithm ≠ .RoundRobin → (GetNextBackend lb r).2 = lb) ∧
    (∀ (lb : LB) (r : Nat), lb.algorithm = .RoundRobin → lb.current < U64 →
      ∃ k, k ≤ lb.backends.length ∧
        ((GetNextBackend lb r).2).current = (lb.current + k) % U64 ∧
        (0 < lb.backends.length → 1 ≤ k) ∧
        (lb.current + lb.backends.length < U64 →
          lb.current ≤ ((GetNextBackend lb r).2).current)) := by
  refine ⟨getNext_backends, getNext_frame_nonRR, ?_⟩
  intro lb r halg hcur
  obtain ⟨k, hk, hres, hpos⟩ := getRoundRobin_cursor lb.backends lb.current hcur
  have hcur' : ((GetNextBackend lb r).2).current =
      (getRoundRobinBackend lb.backends lb.current).2 := by
    simp [GetNextBackend, halg]
  refine ⟨k, hk, by rw [hcur', hres], hpos, ?_⟩
  intro hnowrap
  rw [hcur', hres, Nat.mod_eq_of_lt (by omega)]
  omega

/-- C10 witness: a round-robin selection over two backends (the first dead)
from cursor 5 advances the cursor by at most two steps and does not decrease
it. -/
theorem claim_C10_witness :
    ∃ k, k ≤ 2 ∧
      ((GetNextBackend ⟨[⟨0, false, 0⟩, ⟨1, true, 0⟩], 5, .RoundRobin⟩ 0).2).current =
        (5 + k) % U64 ∧
      (0 < 2 → 1 ≤ k) ∧
      (5 + 2 < U64 →
        5 ≤ ((GetNextBackend ⟨[⟨0, false, 0⟩, ⟨1, true, 0⟩], 5, .RoundRobin⟩ 0).2).current) := by
  have h := claim_C10_selection_frame.2.2
    ⟨[⟨0, false, 0⟩, ⟨1, true, 0⟩], 5, .RoundRobin⟩ 0 rfl (by norm_num [U64])
  exact h

/-- C10 counterexample: the cursor is a uint64 and wraps: with one alive
backend and cursor 2^64 - 1, a round-robin selection moves the cursor to 0,
which is smaller, so the cursor field does not "never decrease". -/
theorem claim_C10_counterexample :
    ((GetNextBackend ⟨[⟨0, true, 0⟩], U64 - 1, .RoundRobin⟩ 0).2).current <
      (⟨[⟨0, true, 0⟩], U64 - 1, .RoundRobin⟩ : LB).current := by
  have h : ((GetNextBackend ⟨[⟨0, true, 0⟩], U64 - 1, .RoundRobin⟩ 0).2).current = 0 := by
    decide
  rw [h]
  norm_num [U64]

/-! Round-robin rotation when every backend is alive. -/

theorem getRoundRobin_all_alive (bs : List Backend) (cur : Nat)
    (hall : ∀ (i : Nat) (b : Backend), bs[i]? = some b → b.alive = true)
    (hlen : 0 < bs.length) :
    getRoundRobinBackend bs cur = (some (cur % bs.length), (cur + 1) % U64) := by
  unfold getRoundRobinBackend
  rw [if_neg (by omega)]
  have hidx : cur % bs.length < bs.length := Nat.mod_lt _ hlen
  obtain ⟨b, hget⟩ : ∃ b, bs[cur % bs.length]? = some b := by
    rw [List.getElem?_eq_getElem hidx]; exact ⟨_, rfl⟩
  have halive := hall _ b hget
  obtain ⟨m, hm⟩ : ∃ m, bs.length = m + 1 := ⟨bs.length - 1, by omega⟩
  conv_lhs => rw [hm]
  rw [rrScan]
  simp [hget, halive]

theorem rrSelections_all_alive (bs : List Backend)
    (hall : ∀ (i : Nat) (b : Backend), bs[i]? = some b → b.alive = true)
    (hlen : 0 < bs.length) :
    ∀ (n cur : Nat), cur + n ≤ U64 →
      ∀ i, i < n → ((rrSelections bs cur n).1)[i]? = some (some ((cur + i) % bs.length))
  | 0, cur => by intro _ i hi; omega
  | n + 1, cur => by
      intro hwrap i hi
      have hstep := getRoundRobin_all_alive bs cur hall hlen
      rw [rrSelections]
      cases i with
      | zero => simp [hstep]
      | succ i' =>
        have hn : 0 < n := by omega
        have hc1 : (cur + 1) % U64 = cur + 1 := Nat.mod_eq_of_lt (by omega)
        have hrec := rrSelections_all_alive bs hall hlen n (cur + 1)
          (by omega) i' (by omega)
        simp only [hstep, hc1, List.getElem?_cons_succ]
        rw [show cur + (i' + 1) = cur + 1 + i' from by omega]
        exact hrec

theorem mod_shift_inj {N c i₁ i₂ : Nat} (h₁ : i₁ < N) (h₂ : i₂ < N)
    (h : (c + i₁) % N = (c + i₂) % N) : i₁ = i₂ := by
  have hm : i₁ ≡ i₂ [MOD N] := Nat.ModEq.add_left_cancel' c h
  have := hm
  unfold Nat.ModEq at this
  rwa [Nat.mod_eq_of_lt h₁, Nat.mod_eq_of_lt h₂] at this

theorem mod_shift_surj {N : Nat} (c : Nat) (hN : 0 < N) {j : Nat} (hj : j < N) :
    ∃ i, i < N ∧ (c + i) % N = j := by
  have hcm : c % N < N := Nat.mod_lt _ hN
  refine ⟨(j + (N - c % N)) % N, Nat.mod_lt _ hN, ?_⟩
  have hmod : (c + (j + (N - c % N)) % N) % N = (c % N + (j + (N - c % N))) % N :=
    Nat.ModEq.add (Nat.mod_modEq c N).symm (Nat.mod_modEq _ N)
  have heq : c % N + (j + (N - c % N)) = j + N := by omega
  calc (c + (j + (N - c % N)) % N) % N
      = (c % N + (j + (N - c % N))) % N := hmod
    _ = (j + N) % N := by rw [heq]
    _ = j := by rw [Nat.add_mod_right]; exact Nat.mod_eq_of_lt hj

/-- C2 (amended): with every backend alive and the cursor not wrapping past
2^64 during the run, N consecutive round-robin selections return exactly the
backends (cursor + i) mod N for i = 0..N-1: each backend exactly once, in
configured circular order, starting at the shared cursor modulo N. The
wraparound hypothesis cur + N ≤ 2^64 is forced by the uint64 counterexample. -/
theorem claim_C2_roundrobin_cycle (bs : List Backend) (cur N : Nat)
    (hN : bs.length = N) (hpos : 0 < N)
    (hall : ∀ (i : Nat) (b : Backend), bs[i]? = some b → b.alive = true)
    (hwrap : cur + N ≤ U64) :
    (∀ i, i < N → ((rrSelections bs cur N).1)[i]? = some (some ((cur + i) % N))) ∧
    (∀ i₁ i₂, i₁ < N → i₂ < N →
      ((rrSelections bs cur N).1)[i₁]? = ((rrSelections bs cur N).1)[i₂]? → i₁ = i₂) ∧
    (∀ j, j < N → ∃ i, i < N ∧ ((rrSelections bs cur N).1)[i]? = some (some j)) := by
  have hpoint : ∀ i, i < N →
      ((rrSelections bs cur N).1)[i]? = some (some ((cur + i) % N)) := by
    intro i hi
    have := rrSelections_all_alive bs hall (by omega) N cur hwrap i hi
    rwa [hN] at this
  refine ⟨hpoint, ?_, ?_⟩
  · intro i₁ i₂ h₁ h₂ heq
    rw [hpoint i₁ h₁, hpoint i₂ h₂] at heq
    simp only [Option.some.injEq] at heq
    exact mod_shift_inj h₁ h₂ heq
  · intro j hj
    obtain ⟨i, hi, hmod⟩ := mod_shift_surj cur hpos hj
    exact ⟨i, hi, by rw [hpoint i hi, hmod]⟩

/-- C2 counterexample: the cursor is a uint64 and wraps. With three alive
backends and the shared cursor at 2^64 - 1, the next three selections return
backend 0, backend 0 again, and backend 1: backend 0 comes back twice and
backend 2 never, so the claim fails as stated for an arbitrary cursor. -/
theorem claim_C2_counterexample :
    (rrSelections [⟨0, true, 0⟩, ⟨1, true, 0⟩, ⟨2, true, 0⟩] (U64 - 1) 3).1
        = [some 0, some 0, some 1] ∧
    ((rrSelections [⟨0, true, 0⟩, ⟨1, true, 0⟩, ⟨2, true, 0⟩] (U64 - 1) 3).1.count
        (some 0)) = 2 :=
  ⟨by decide, by decide⟩

/-- C2 witness: three alive backends, cursor 5: the first selection is
backend (5 + 0) mod 3 = 2. -/
theorem claim_C2_witness :
    ((rrSelections [⟨0, true, 0⟩, ⟨1, true, 0⟩, ⟨2, true, 0⟩] 5 3).1)[0]? =
      some (some ((5 + 0) % 3)) := by
  have hall : ∀ (i : Nat) (b : Backend),
      ([⟨0, true, 0⟩, ⟨1, true, 0⟩, ⟨2, true, 0⟩] : List Backend)[i]? = some b →
        b.alive = true := by
    intro i b h
    rcases i with _ | _ | _ | i
    · cases h; rfl
    · cases h; rfl
    · cases h; rfl
    · simp at h
  exact (claim_C2_roundrobin_cycle [⟨0, true, 0⟩, ⟨1, true, 0⟩, ⟨2, true, 0⟩] 5 3
    rfl (by decide) hall (by norm_num [U64])).1 0 (by decide)

/-- C7 (amended): whenever some alive backend has a connection count below the
int sentinel 2^63 - 1 (always true in practice, counters start at 0), the
least-connections scan returns an alive backend whose count is minimal among
the alive backends, ties broken by first position in configured order; and it
returns the nil sentinel when no backend is alive. The sentinel hypothesis is
forced by the counterexample, where the only alive backend sits exactly at
2^63 - 1 and is never selected. -/
theorem claim_C7_least_connections :
    (∀ (bs : List Backend),
      (∃ (i : Nat) (b : Backend), bs[i]? = some b ∧ b.alive = true ∧ b.conns < maxGoInt) →
      ∃ (j : Nat) (bj : Backend), getLeastBusyBackend bs = some j ∧ bs[j]? = some bj ∧
        bj.alive = true ∧
        (∀ (k : Nat) (bk : Backend), bs[k]? = some bk → bk.alive = true →
          bj.conns ≤ bk.conns) ∧
        (∀ (k : Nat) (bk : Backend), k < j → bs[k]? = some bk → bk.alive = true →
          bj.conns < bk.conns)) ∧
    (∀ (bs : List Backend),
      (∀ (k : Nat) (bk : Backend), bs[k]? = some bk → bk.alive = false) →
      getLeastBusyBackend bs = none) := by
  constructor
  · intro bs ⟨i, b, hget, halive, hlt⟩
    cases hres : getLeastBusyBackend bs with
    | none =>
      have := (getLeastBusy_spec bs).1 hres i b hget halive
      omega
    | some j =>
      obtain ⟨bj, hbj, hjalive, _, hmin, hfirst⟩ := (getLeastBusy_spec bs).2 j hres
      exact ⟨j, bj, rfl, hbj, hjalive, hmin, hfirst⟩
  · intro bs hdead
    cases hres : getLeastBusyBackend bs with
    | none => rfl
    | some j =>
      obtain ⟨bj, hbj, hjalive, _⟩ := (getLeastBusy_spec bs).2 j hres
      rw [hdead j bj hbj] at hjalive
      exact absurd hjalive (by simp)

/-- C7 counterexample: a single alive backend whose activeConns equals the
initial minConns sentinel 2^63 - 1 is never selected - the scan's strict
comparison conns < minConns fails - so getLeastBusyBackend returns nil even
though an alive backend exists. -/
theorem claim_C7_counterexample :
    (⟨0, true, maxGoInt⟩ : Backend).alive = true ∧
    getLeastBusyBackend [⟨0, true, maxGoInt⟩] = none :=
  ⟨rfl, by decide⟩

/-- C7 witness: the spec scenario - backends with 2, 0 and 1 active
connections, all alive - selects backend 1, the unique minimum. -/
theorem claim_C7_witness :
    ∃ (j : Nat) (bj : Backend),
      getLeastBusyBackend [⟨0, true, 2⟩, ⟨1, true, 0⟩, ⟨2, true, 1⟩] = some j ∧
      ([⟨0, true, 2⟩, ⟨1, true, 0⟩, ⟨2, true, 1⟩] : List Backend)[j]? = some bj ∧
      bj.alive = true ∧
      (∀ (k : Nat) (bk : Backend),
        ([⟨0, true, 2⟩, ⟨1, true, 0⟩, ⟨2, true, 1⟩] : List Backend)[k]? = some bk →
        bk.alive = true → bj.conns ≤ bk.conns) ∧
      (∀ (k : Nat) (bk : Backend), k < j →
        ([⟨0, true, 2⟩, ⟨1, true, 0⟩, ⟨2, true, 1⟩] : List Backend)[k]? = some bk →
        bk.alive = true → bj.conns < bk.conns) :=
  claim_C7_least_connections.1 [⟨0, true, 2⟩, ⟨1, true, 0⟩, ⟨2, true, 1⟩]
    ⟨1, ⟨1, true, 0⟩, rfl, rfl, by decide⟩

/-! Helper lemmas for the dispatch chain. -/

theorem lt_length_of_getElem? {l : List Backend} {i : Nat} {b : Backend}
    (h : l[i]? = some b) : i < l.length := by
  by_contra hge
  rw [List.getElem?_eq_none (by omega)] at h
  exact Option.noConfusion h

theorem updateAt_length (f : Backend → Backend) :
    ∀ (l : List Backend) (n : Nat), (updateAt f l n).length = l.length
  | [], n => by cases n <;> rfl
  | b :: rest, 0 => rfl
  | b :: rest, n + 1 => by simp [updateAt, updateAt_length f rest n]

theorem connsAt_congr {lb lb' : LB} (h : lb'.backends = lb.backends) (j : Nat) :
    connsAt lb' j = connsAt lb j := by
  unfold connsAt
  rw [h]

theorem deadAt_congr {lb lb' : LB} (h : lb'.backends = lb.backends) {j : Nat}
    (hd : deadAt lb' j) : deadAt lb j := by
  obtain ⟨b, hb, hdead⟩ := hd
  exact ⟨b, h ▸ hb, hdead⟩

theorem aliveAt_incConn (lb : LB) (i j : Nat) :
    aliveAt (incConn lb i) j ↔ aliveAt lb j := by
  unfold aliveAt
  rw [getElem_incConn]
  by_cases h : j = i
  · simp only [h, if_true]
    cases lb.backends[i]? with
    | none => simp
    | some b => simp
  · simp [h]

theorem deadAt_incConn (lb : LB) (i j : Nat) :
    deadAt (incConn lb i) j ↔ deadAt lb j := by
  unfold deadAt
  rw [getElem_incConn]
  by_cases h : j = i
  · simp only [h, if_true]
    cases lb.backends[i]? with
    | none => simp
    | some b => simp
  · simp [h]

theorem deadAt_decConn (lb : LB) (i j : Nat) :
    deadAt (decConn lb i) j ↔ deadAt lb j := by
  unfold deadAt
  rw [getElem_decConn]
  by_cases h : j = i
  · simp only [h, if_true]
    cases lb.backends[i]? with
    | none => simp
    | some b => simp
  · simp [h]

theorem aliveCount_incConn (lb : LB) (i : Nat) :
    aliveCount (incConn lb i).backends = aliveCount lb.backends :=
  aliveCount_updateAt_of_alive_eq (fun b => { b with conns := b.conns + 1 }) (fun _ => rfl) lb.backends i

theorem aliveCount_le_length (l : List Backend) : aliveCount l ≤ l.length :=
  List.length_filter_le _ l

theorem not_aliveAt_of_deadAt {lb : LB} {j : Nat} (hd : deadAt lb j)
    (ha : aliveAt lb j) : False := by
  obtain ⟨b, hb, hdead⟩ := hd
  obtain ⟨b', hb', halive⟩ := ha
  rw [hb] at hb'
  cases hb'
  rw [hdead] at halive
  exact Bool.false_ne_true halive

/-! The ErrorHandler chain never touches any connection counter. -/

theorem chain_conns (fails : Nat → Bool) :
    ∀ (fuel : Nat) (lb : LB) (fi : Nat) (rs : List Nat) (j : Nat),
      connsAt (errorHandlerChain fails fuel lb fi rs).lb j = connsAt lb j ∧
      ∀ p ∈ (errorHandlerChain fails fuel lb fi rs).attempts, connsAt p.2 j = connsAt lb j
  | 0, lb, fi, rs, j => by
      rw [errorHandlerChain]
      exact ⟨connsAt_markDead lb fi j, by simp⟩
  | fuel + 1, lb, fi, rs, j => by
      rw [errorHandlerChain]
      rcases hsel : GetNextBackend (markDead lb fi) (rs.headD 0) with ⟨o, lb₂⟩
      have hbe : lb₂.backends = (markDead lb fi).backends := by
        have h := getNext_backends (markDead lb fi) (rs.headD 0)
        rw [hsel] at h
        exact h
      have hc2 : ∀ k, connsAt lb₂ k = connsAt lb k := fun k => by
        rw [connsAt_congr hbe, connsAt_markDead]
      cases o with
      | none =>
        exact ⟨hc2 j, by simp⟩
      | some jj =>
        cases hf : fails jj with
        | true =>
          obtain ⟨ih1, ih2⟩ := chain_conns fails fuel lb₂ jj rs.tail j
          simp only [hf, if_true]
          refine ⟨by rw [ih1, hc2], ?_⟩
          intro p hp
          simp only [List.mem_cons] at hp
          rcases hp with hp | hp
          · subst hp; exact hc2 j
          · rw [ih2 p hp, hc2]
        | false =>
          simp only [hf, Bool.false_eq_true, if_false]
          refine ⟨hc2 j, ?_⟩
          intro p hp
          simp only [List.mem_cons, List.not_mem_nil, or_false] at hp
          subst hp
          exact hc2 j

/-! Liveness bookkeeping of the ErrorHandler chain. -/

theorem chain_dead_mono (fails : Nat → Bool) :
    ∀ (fuel : Nat) (lb : LB) (fi : Nat) (rs : List Nat) (k : Nat),
      deadAt (markDead lb fi) k →
      deadAt (errorHandlerChain fails fuel lb fi rs).lb k
  | 0, lb, fi, rs, k => by
      intro hd
      rw [errorHandlerChain]
      exact hd
  | fuel + 1, lb, fi, rs, k => by
      intro hd
      rw [errorHandlerChain]
      rcases hsel : GetNextBackend (markDead lb fi) (rs.headD 0) with ⟨o, lb₂⟩
      have hbe : lb₂.backends = (markDead lb fi).backends := by
        have h := getNext_backends (markDead lb fi) (rs.headD 0)
        rw [hsel] at h
        exact h
      have hd₂ : deadAt lb₂ k := deadAt_congr hbe.symm hd
      cases o with
      | none => exact hd₂
      | some jj =>
        cases hf : fails jj with
        | true =>
          simp only [hf, if_true]
          exact chain_dead_mono fails fuel lb₂ jj rs.tail k (deadAt_markDead lb₂ hd₂)
        | false =>
          simp only [hf, Bool.false_eq_true, if_false]
          exact hd₂

theorem chain_marks_self (fails : Nat → Bool) :
    ∀ (fuel : Nat) (lb : LB) (fi : Nat) (rs : List Nat),
      (∃ b, lb.backends[fi]? = some b) →
      deadAt (errorHandlerChain fails fuel lb fi rs).lb fi
  | 0, lb, fi, rs => by
      intro ⟨b, hb⟩
      rw [errorHandlerChain]
      exact deadAt_markDead_self lb hb
  | fuel + 1, lb, fi, rs => by
      intro ⟨b, hb⟩
      rw [errorHandlerChain]
      have hd : deadAt (markDead lb fi) fi := deadAt_markDead_self lb hb
      rcases hsel : GetNextBackend (markDead lb fi) (rs.headD 0) with ⟨o, lb₂⟩
      have hbe : lb₂.backends = (markDead lb fi).backends := by
        have h := getNext_backends (markDead lb fi) (rs.headD 0)
        rw [hsel] at h
        exact h
      have hd₂ : deadAt lb₂ fi := deadAt_congr hbe.symm hd
      cases o with
      | none => exact hd₂
      | some jj =>
        cases hf : fails jj with
        | true =>
          simp only [hf, if_true]
          exact chain_dead_mono fails fuel lb₂ jj rs.tail fi (deadAt_markDead lb₂ hd₂)
        | false =>
          simp only [hf, Bool.false_eq_true, if_false]
          exact hd₂

theorem chain_attempts_alive (fails : Nat → Bool) :
    ∀ (fuel : Nat) (lb : LB) (fi : Nat) (rs : List Nat),
      ∀ p ∈ (errorHandlerChain fails fuel lb fi rs).attempts, aliveAt p.2 p.1
  | 0, lb, fi, rs => by
      rw [errorHandlerChain]
      simp
  | fuel + 1, lb, fi, rs => by
      rw [errorHandlerChain]
      rcases hsel : GetNextBackend (markDead lb fi) (rs.headD 0) with ⟨o, lb₂⟩
      have hbe : lb₂.backends = (markDead lb fi).backends := by
        have h := getNext_backends (markDead lb fi) (rs.headD 0)
        rw [hsel] at h
        exact h
      cases o with
      | none => simp
      | some jj =>
        have hsel1 : (GetNextBackend (markDead lb fi) (rs.headD 0)).1 = some jj := by
          rw [hsel]
        have halive : aliveAt lb₂ jj :=
          aliveAt_of_backends_eq hbe.symm (getNext_alive _ _ jj hsel1)
        cases hf : fails jj with
        | true =>
          simp only [hf, if_true]
          intro p hp
          simp only [List.mem_cons] at hp
          rcases hp with hp | hp
          · subst hp; exact halive
          · exact chain_attempts_alive fails fuel lb₂ jj rs.tail p hp
        | false =>
          simp only [hf, Bool.false_eq_true, if_false]
          intro p hp
          simp only [List.mem_cons, List.not_mem_nil, or_false] at hp
          subst hp
          exact halive

theorem chain_marks_failed (fails : Nat → Bool) :
    ∀ (fuel : Nat) (lb : LB) (fi : Nat) (rs : List Nat),
      ∀ p ∈ (errorHandlerChain fails fuel lb fi rs).attempts, fails p.1 = true →
        deadAt (errorHandlerChain fails fuel lb fi rs).lb p.1
  | 0, lb, fi, rs => by
      rw [errorHandlerChain]
      simp
  | fuel + 1, lb, fi, rs => by
      rw [errorHandlerChain]
      rcases hsel : GetNextBackend (markDead lb fi) (rs.headD 0) with ⟨o, lb₂⟩
      have hbe : lb₂.backends = (markDead lb fi).backends := by
        have h := getNext_backends (markDead lb fi) (rs.headD 0)
        rw [hsel] at h
        exact h
      cases o with
      | none => simp
      | some jj =>
        have hsel1 : (GetNextBackend (markDead lb fi) (rs.headD 0)).1 = some jj := by
          rw [hsel]
        have halive : aliveAt lb₂ jj :=
          aliveAt_of_backends_eq hbe.symm (getNext_alive _ _ jj hsel1)
        cases hf : fails jj with
        | true =>
          simp only [hf, if_true]
          intro p hp hpf
          simp only [List.mem_cons] at hp
          rcases hp with hp | hp
          · subst hp
            obtain ⟨b₂, hb₂, _⟩ := halive
            exact chain_marks_self fails fuel lb₂ jj rs.tail ⟨b₂, hb₂⟩
          · exact chain_marks_failed fails fuel lb₂ jj rs.tail p hp hpf
        | false =>
          simp only [hf, Bool.false_eq_true, if_false]
          intro p hp hpf
          simp only [List.mem_cons, List.not_mem_nil, or_false] at hp
          subst hp
          rw [hpf] at hf
          exact absurd hf (by simp)

theorem chain_avoid (fails : Nat → Bool) :
    ∀ (fuel : Nat) (lb : LB) (fi : Nat) (rs : List Nat) (k : Nat),
      deadAt (markDead lb fi) k →
      k ∉ ((errorHandlerChain fails fuel lb fi rs).attempts.map Prod.fst)
  | 0, lb, fi, rs, k => by
      intro _
      rw [errorHandlerChain]
      simp
  | fuel + 1, lb, fi, rs, k => by
      intro hd
      rw [errorHandlerChain]
      rcases hsel : GetNextBackend (markDead lb fi) (rs.headD 0) with ⟨o, lb₂⟩
      have hbe : lb₂.backends = (markDead lb fi).backends := by
        have h := getNext_backends (markDead lb fi) (rs.headD 0)
        rw [hsel] at h
        exact h
      cases o with
      | none => simp
      | some jj =>
        have hsel1 : (GetNextBackend (markDead lb fi) (rs.headD 0)).1 = some jj := by
          rw [hsel]
        have halive : aliveAt (markDead lb fi) jj := getNext_alive _ _ jj hsel1
        have hne : jj ≠ k := by
          intro hjk
          subst hjk
          exact not_aliveAt_of_deadAt hd halive
        cases hf : fails jj with
        | true =>
          simp only [hf, if_true, List.map_cons, List.mem_cons, not_or]
          refine ⟨fun hk => hne hk.symm, ?_⟩
          have hd₂ : deadAt lb₂ k := deadAt_congr hbe.symm hd
          exact chain_avoid fails fuel lb₂ jj rs.tail k (deadAt_markDead lb₂ hd₂)
        | false =>
          simp only [hf, Bool.false_eq_true, if_false, List.map_cons, List.map_nil,
            List.mem_singleton]
          exact fun hk => hne hk.symm

theorem chain_nodup (fails : Nat → Bool) :
    ∀ (fuel : Nat) (lb : LB) (fi : Nat) (rs : List Nat),
      ((errorHandlerChain fails fuel lb fi rs).attempts.map Prod.fst).Nodup
  | 0, lb, fi, rs => by
      rw [errorHandlerChain]
      simp
  | fuel + 1, lb, fi, rs => by
      rw [errorHandlerChain]
      rcases hsel : GetNextBackend (markDead lb fi) (rs.headD 0) with ⟨o, lb₂⟩
      have hbe : lb₂.backends = (markDead lb fi).backends := by
        have h := getNext_backends (markDead lb fi) (rs.headD 0)
        rw [hsel] at h
        exact h
      cases o with
      | none => simp
      | some jj =>
        have hsel1 : (GetNextBackend (markDead lb fi) (rs.headD 0)).1 = some jj := by
          rw [hsel]
        have halive : aliveAt lb₂ jj :=
          aliveAt_of_backends_eq hbe.symm (getNext_alive _ _ jj hsel1)
        cases hf : fails jj with
        | true =>
          simp only [hf, if_true, List.map_cons, List.nodup_cons]
          obtain ⟨b₂, hb₂, _⟩ := halive
          exact ⟨chain_avoid fails fuel lb₂ jj rs.tail jj (deadAt_markDead_self lb₂ hb₂),
            chain_nodup fails fuel lb₂ jj rs.tail⟩
        | false =>
          simp only [hf, Bool.false_eq_true, if_false]
          simp

theorem chain_len (fails : Nat → Bool) :
    ∀ (fuel : Nat) (lb : LB) (fi : Nat) (rs : List Nat),
      (errorHandlerChain fails fuel lb fi rs).attempts.length ≤
        aliveCount (markDead lb fi).backends
  | 0, lb, fi, rs => by
      rw [errorHandlerChain]
      simp
  | fuel + 1, lb, fi, rs => by
      rw [errorHandlerChain]
      rcases hsel : GetNextBackend (markDead lb fi) (rs.headD 0) with ⟨o, lb₂⟩
      have hbe : lb₂.backends = (markDead lb fi).backends := by
        have h := getNext_backends (markDead lb fi) (rs.headD 0)
        rw [hsel] at h
        exact h
      cases o with
      | none => simp
      | some jj =>
        have hsel1 : (GetNextBackend (markDead lb fi) (rs.headD 0)).1 = some jj := by
          rw [hsel]
        have halive₂ : aliveAt lb₂ jj :=
          aliveAt_of_backends_eq hbe.symm (getNext_alive _ _ jj hsel1)
        cases hf : fails jj with
        | true =>
          simp only [hf, if_true, List.length_cons]
          have hrec := chain_len fails fuel lb₂ jj rs.tail
          obtain ⟨b₂, hb₂, halive⟩ := halive₂
          have hcount := aliveCount_markDead lb₂ hb₂ halive
          have hcong : aliveCount lb₂.backends = aliveCount (markDead lb fi).backends := by
            rw [hbe]
          omega
        | false =>
          simp only [hf, Bool.false_eq_true, if_false, List.length_cons, List.length_nil]
          have hpos := aliveCount_pos_of_aliveAt halive₂
          have hcong : aliveCount lb₂.backends = aliveCount (markDead lb fi).backends := by
            rw [hbe]
          omega

theorem chain_served (fails : Nat → Bool) :
    ∀ (fuel : Nat) (lb : LB) (fi : Nat) (rs : List Nat) (j : Nat),
      (errorHandlerChain fails fuel lb fi rs).outcome = .served j →
      ∃ st, (j, st) ∈ (errorHandlerChain fails fuel lb fi rs).attempts ∧ fails j = false
  | 0, lb, fi, rs, j => by
      rw [errorHandlerChain]
      intro h
      exact Outcome.noConfusion h
  | fuel + 1, lb, fi, rs, j => by
      rw [errorHandlerChain]
      rcases hsel : GetNextBackend (markDead lb fi) (rs.headD 0) with ⟨o, lb₂⟩
      cases o with
      | none =>
        intro h
        exact Outcome.noConfusion h
      | some jj =>
        cases hf : fails jj with
        | true =>
          simp only [hf, if_true]
          intro h
          obtain ⟨st, hmem, hjf⟩ := chain_served fails fuel lb₂ jj rs.tail j h
          exact ⟨st, List.mem_cons_of_mem _ hmem, hjf⟩
        | false =>
          simp only [hf, Bool.false_eq_true, if_false]
          intro h
          cases h
          exact ⟨lb₂, List.mem_cons_self _ _, hf⟩

theorem chain_unavail (fails : Nat → Bool) :
    ∀ (fuel : Nat) (lb : LB) (fi : Nat) (rs : List Nat),
      (errorHandlerChain fails fuel lb fi rs).outcome = .unavailable →
      ∀ p ∈ (errorHandlerChain fails fuel lb fi rs).attempts, fails p.1 = true
  | 0, lb, fi, rs => by
      rw [errorHandlerChain]
      simp
  | fuel + 1, lb, fi, rs => by
      rw [errorHandlerChain]
      rcases hsel : GetNextBackend (markDead lb fi) (rs.headD 0) with ⟨o, lb₂⟩
      cases o with
      | none => simp
      | some jj =>
        cases hf : fails jj with
        | true =>
          simp only [hf, if_true]
          intro h p hp
          simp only [List.mem_cons] at hp
          rcases hp with hp | hp
          · subst hp; exact hf
          · exact chain_unavail fails fuel lb₂ jj rs.tail h p hp
        | false =>
          simp only [hf, Bool.false_eq_true, if_false]
          intro h
          exact Outcome.noConfusion h

theorem connsAt_decConn_other (lb : LB) {i j : Nat} (h : j ≠ i) :
    connsAt (decConn lb i) j = connsAt lb j := by
  unfold connsAt decConn
  simp [updateAt_getElem, h]

/-- C1 (amended): on a transport failure the ErrorHandler marks the failed
backend dead and forwards to the next selected backend; since that backend's
proxy carries the same ErrorHandler, a failing retry repeats the treatment, so
a request makes at most len(backends) forwarding attempts, to pairwise
distinct backends, each alive when attempted; every failed backend ends up
marked dead in the final state; a backend is reported served only when its
forward did not fail; and the request ends 503 only after every attempted
backend failed. The chain is bounded and never loops; the claim's "exactly one
alternate backend" is refuted by the counterexample with two failing
alternates. -/
theorem claim_C1_retry_chain_bounded (fails : Nat → Bool) (lb : LB) (r : Nat)
    (rs : List Nat) :
    ((serveHTTP fails lb r rs).attempts.length ≤ lb.backends.length) ∧
    (((serveHTTP fails lb r rs).attempts.map Prod.fst).Nodup) ∧
    (∀ p ∈ (serveHTTP fails lb r rs).attempts, aliveAt p.2 p.1) ∧
    (∀ p ∈ (serveHTTP fails lb r rs).attempts, fails p.1 = true →
      deadAt (serveHTTP fails lb r rs).lb p.1) ∧
    (∀ j, (serveHTTP fails lb r rs).outcome = .served j →
      ∃ st, (j, st) ∈ (serveHTTP fails lb r rs).attempts ∧ fails j = false) ∧
    ((serveHTTP fails lb r rs).outcome = .unavailable →
      ∀ p ∈ (serveHTTP fails lb r rs).attempts, fails p.1 = true) := by
  rw [serveHTTP]
  rcases hsel : GetNextBackend lb r with ⟨o, lb₁⟩
  have hbe : lb₁.backends = lb.backends := by
    have h := getNext_backends lb r
    rw [hsel] at h
    exact h
  cases o with
  | none =>
    refine ⟨by simp, by simp, by simp, by simp, ?_, by simp⟩
    intro j h
    exact Outcome.noConfusion h
  | some i =>
    have hsel1 : (GetNextBackend lb r).1 = some i := by rw [hsel]
    have halive : aliveAt lb i := getNext_alive lb r i hsel1
    have halive₁ : aliveAt lb₁ i := aliveAt_of_backends_eq hbe.symm halive
    have halive₂ : aliveAt (incConn lb₁ i) i := (aliveAt_incConn lb₁ i i).mpr halive₁
    obtain ⟨b₂, hb₂, hb₂alive⟩ := halive₂
    obtain ⟨b₀, hb₀, _⟩ := halive
    have hleni : i < lb.backends.length := lt_length_of_getElem? hb₀
    cases hfi : fails i with
    | false =>
      simp only [hfi, Bool.false_eq_true, if_false]
      refine ⟨by simp; omega, by simp, ?_, ?_, ?_, ?_⟩
      · intro p hp
        simp only [List.mem_cons, List.not_mem_nil, or_false] at hp
        subst hp
        exact ⟨b₂, hb₂, hb₂alive⟩
      · intro p hp hpf
        simp only [List.mem_cons, List.not_mem_nil, or_false] at hp
        subst hp
        rw [hpf] at hfi
        exact absurd hfi (by simp)
      · intro j h
        cases h
        exact ⟨incConn lb₁ i, List.mem_cons_self _ _, hfi⟩
      · intro h
        exact Outcome.noConfusion h
    | true =>
      simp only [hfi, if_true]
      have hcnt := chain_len fails (lb.backends.length + 1) (incConn lb₁ i) i rs
      have hmark := aliveCount_markDead (incConn lb₁ i) hb₂ hb₂alive
      have hinc := aliveCount_incConn lb₁ i
      have hcong : aliveCount lb₁.backends = aliveCount lb.backends := by rw [hbe]
      have hle := aliveCount_le_length lb.backends
      refine ⟨?_, ?_, ?_, ?_, ?_, ?_⟩
      · simp only [List.length_cons]
        omega
      · simp only [List.map_cons, List.nodup_cons]
        exact ⟨chain_avoid fails (lb.backends.length + 1) (incConn lb₁ i) i rs i
            (deadAt_markDead_self (incConn lb₁ i) hb₂),
          chain_nodup fails (lb.backends.length + 1) (incConn lb₁ i) i rs⟩
      · intro p hp
        simp only [List.mem_cons] at hp
        rcases hp with hp | hp
        · subst hp
          exact ⟨b₂, hb₂, hb₂alive⟩
        · exact chain_attempts_alive fails (lb.backends.length + 1) (incConn lb₁ i) i rs p hp
      · intro p hp hpf
        simp only [List.mem_cons] at hp
        rcases hp with hp | hp
        · subst hp
          exact (deadAt_decConn _ _ _).mpr
            (chain_marks_self fails (lb.backends.length + 1) (incConn lb₁ i) i rs ⟨b₂, hb₂⟩)
        · exact (deadAt_decConn _ _ _).mpr
            (chain_marks_failed fails (lb.backends.length + 1) (incConn lb₁ i) i rs p hp hpf)
      · intro j h
        obtain ⟨st, hmem, hjf⟩ :=
          chain_served fails (lb.backends.length + 1) (incConn lb₁ i) i rs j h
        exact ⟨st, List.mem_cons_of_mem _ hmem, hjf⟩
      · intro h p hp
        simp only [List.mem_cons] at hp
        rcases hp with hp | hp
        · subst hp; exact hfi
        · exact chain_unavail fails (lb.backends.length + 1) (incConn lb₁ i) i rs h p hp

/-- C1 counterexample: three alive backends, every forward fails. The request
makes the primary attempt on backend 0 and then attempts two alternates
(backends 1 and 2) before the 503, refuting "exactly one alternate backend". -/
theorem claim_C1_counterexample :
    ((serveHTTP (fun _ => true)
        ⟨[⟨0, true, 0⟩, ⟨1, true, 0⟩, ⟨2, true, 0⟩], 0, .RoundRobin⟩ 0 []).attempts.map
      Prod.fst = [0, 1, 2]) ∧
    ((serveHTTP (fun _ => true)
        ⟨[⟨0, true, 0⟩, ⟨1, true, 0⟩, ⟨2, true, 0⟩], 0, .RoundRobin⟩ 0 []).outcome =
      .unavailable) :=
  ⟨by decide, by decide⟩

/-- C1 witness: backend 0 fails, backend 1 succeeds; the request is served by
backend 1, which appears among the attempts and did not fail. -/
theorem claim_C1_witness :
    ∃ st, (1, st) ∈ (serveHTTP (fun j => j == 0)
        ⟨[⟨0, true, 0⟩, ⟨1, true, 0⟩, ⟨2, true, 0⟩], 0, .RoundRobin⟩ 0 []).attempts ∧
      (fun j => j == 0) 1 = false :=
  (claim_C1_retry_chain_bounded (fun j => j == 0)
    ⟨[⟨0, true, 0⟩, ⟨1, true, 0⟩, ⟨2, true, 0⟩], 0, .RoundRobin⟩ 0 []).2.2.2.2.1 1 (by decide)

/-- C5: for every backend, one dispatched request increments its counter at
most once (to at most one above its starting value), the counter never drops
below its starting value (hence stays nonnegative) at every forwarding point,
and it returns exactly to its pre-request value in the final state, on every
exit path: direct success, retried transport failure, or 503. -/
theorem claim_C5_reservation_balanced (fails : Nat → Bool) (lb : LB) (r : Nat)
    (rs : List Nat) (j : Nat) (h0 : 0 ≤ connsAt lb j) :
    connsAt (serveHTTP fails lb r rs).lb j = connsAt lb j ∧
    ∀ p ∈ (serveHTTP fails lb r rs).attempts,
      connsAt lb j ≤ connsAt p.2 j ∧ connsAt p.2 j ≤ connsAt lb j + 1 ∧
        0 ≤ connsAt p.2 j := by
  rw [serveHTTP]
  rcases hsel : GetNextBackend lb r with ⟨o, lb₁⟩
  have hbe : lb₁.backends = lb.backends := by
    have h := getNext_backends lb r
    rw [hsel] at h
    exact h
  have hc1 : ∀ k, connsAt lb₁ k = connsAt lb k := connsAt_congr hbe
  cases o with
  | none => exact ⟨hc1 j, by simp⟩
  | some i =>
    have hsel1 : (GetNextBackend lb r).1 = some i := by rw [hsel]
    have halive : aliveAt lb i := getNext_alive lb r i hsel1
    have halive₁ : aliveAt lb₁ i := aliveAt_of_backends_eq hbe.symm halive
    obtain ⟨b₁, hb₁, _⟩ := id halive₁
    have hicself : connsAt (incConn lb₁ i) i = connsAt lb i + 1 := by
      rw [connsAt_incConn_self lb₁ hb₁, hc1]
    have hicother : ∀ k, k ≠ i → connsAt (incConn lb₁ i) k = connsAt lb k := by
      intro k hk
      rw [connsAt_incConn_other lb₁ hk, hc1]
    have halive₂ : aliveAt (incConn lb₁ i) i := (aliveAt_incConn lb₁ i i).mpr halive₁
    obtain ⟨b₂, hb₂, _⟩ := halive₂
    cases hfi : fails i with
    | false =>
      simp only [hfi, Bool.false_eq_true, if_false]
      constructor
      · by_cases hji : j = i
        · rw [hji, connsAt_decConn_self (incConn lb₁ i) hb₂, hicself]
          omega
        · rw [connsAt_decConn_other _ hji, hicother j hji]
      · intro p hp
        simp only [List.mem_cons, List.not_mem_nil, or_false] at hp
        subst hp
        by_cases hji : j = i
        · rw [hji] at h0
          rw [hji, hicself]
          omega
        · rw [hicother j hji]
          omega
    | true =>
      simp only [hfi, if_true]
      have hchain := chain_conns fails (lb.backends.length + 1) (incConn lb₁ i) i rs
      obtain ⟨b₃, hb₃, _⟩ :=
        chain_marks_self fails (lb.backends.length + 1) (incConn lb₁ i) i rs ⟨b₂, hb₂⟩
      constructor
      · by_cases hji : j = i
        · rw [hji, connsAt_decConn_self _ hb₃, (hchain i).1, hicself]
          omega
        · rw [connsAt_decConn_other _ hji, (hchain j).1]
          exact hicother j hji
      · intro p hp
        simp only [List.mem_cons] at hp
        rcases hp with hp | hp
        · subst hp
          by_cases hji : j = i
          · rw [hji] at h0; rw [hji, hicself]; omega
          · rw [hicother j hji]; omega
        · rw [(hchain j).2 p hp]
          by_cases hji : j = i
          · rw [hji] at h0; rw [hji, hicself]; omega
          · rw [hicother j hji]; omega

/-- C5 witness: two backends under least-connections, no failure; backend 0 is
selected, incremented and decremented, and its counter ends where it began. -/
theorem claim_C5_witness :
    connsAt (serveHTTP (fun _ => false)
        ⟨[⟨0, true, 0⟩, ⟨1, true, 2⟩], 0, .LeastConnections⟩ 0 []).lb 0 =
      connsAt ⟨[⟨0, true, 0⟩, ⟨1, true, 2⟩], 0, .LeastConnections⟩ 0 :=
  (claim_C5_reservation_balanced (fun _ => false)
    ⟨[⟨0, true, 0⟩, ⟨1, true, 2⟩], 0, .LeastConnections⟩ 0 [] 0 (by decide)).1

/-- C6 (amended): on a forwarding failure the ErrorHandler marks the failed
backend alive = false and re-selects via the same algorithm, but the alternate
is forwarded WITHOUT incrementing its activeConnections, and the failed
backend's reservation is NOT released before re-selection: it stays held (one
above its pre-request value) in the state of every forwarding attempt of the
request and is released exactly once, by the deferred decrement, when the
whole request handling returns; if the retry chain finds no alternate the
dispatcher responds service-unavailable, every attempted backend having
failed. -/
theorem claim_C6_failure_path (fails : Nat → Bool) (lb : LB) (r : Nat)
    (rs : List Nat) (i : Nat)
    (hseli : (GetNextBackend lb r).1 = some i) (hfaili : fails i = true) :
    deadAt (serveHTTP fails lb r rs).lb i ∧
    (∀ p ∈ (serveHTTP fails lb r rs).attempts, p.1 ≠ i →
      connsAt p.2 p.1 = connsAt lb p.1) ∧
    (∀ p ∈ (serveHTTP fails lb r rs).attempts, connsAt p.2 i = connsAt lb i + 1) ∧
    (∀ j, connsAt (serveHTTP fails lb r rs).lb j = connsAt lb j) ∧
    ((serveHTTP fails lb r rs).outcome = .unavailable →
      ∀ p ∈ (serveHTTP fails lb r rs).attempts, fails p.1 = true) := by
  rw [serveHTTP]
  rcases hsel : GetNextBackend lb r with ⟨o, lb₁⟩
  have hbe : lb₁.backends = lb.backends := by
    have h := getNext_backends lb r
    rw [hsel] at h
    exact h
  have hc1 : ∀ k, connsAt lb₁ k = connsAt lb k := connsAt_congr hbe
  rw [hsel] at hseli
  have ho : o = some i := hseli
  subst ho
  · have halive : aliveAt lb i := getNext_alive lb r i (by rw [hsel])
    have halive₁ : aliveAt lb₁ i := aliveAt_of_backends_eq hbe.symm halive
    obtain ⟨b₁, hb₁, _⟩ := id halive₁
    have hicself : connsAt (incConn lb₁ i) i = connsAt lb i + 1 := by
      rw [connsAt_incConn_self lb₁ hb₁, hc1]
    have hicother : ∀ k, k ≠ i → connsAt (incConn lb₁ i) k = connsAt lb k := by
      intro k hk
      rw [connsAt_incConn_other lb₁ hk, hc1]
    have halive₂ : aliveAt (incConn lb₁ i) i := (aliveAt_incConn lb₁ i i).mpr halive₁
    obtain ⟨b₂, hb₂, hb₂alive⟩ := halive₂
    simp only [hfaili, if_true]
    have hchain := chain_conns fails (lb.backends.length + 1) (incConn lb₁ i) i rs
    have hmarked :=
      chain_marks_self fails (lb.backends.length + 1) (incConn lb₁ i) i rs ⟨b₂, hb₂⟩
    obtain ⟨b₃, hb₃, _⟩ := id hmarked
    refine ⟨?_, ?_, ?_, ?_, ?_⟩
    · exact (deadAt_decConn _ _ _).mpr hmarked
    · intro p hp hpne
      simp only [List.mem_cons] at hp
      rcases hp with hp | hp
      · exact absurd (by rw [hp]) hpne
      · rw [(hchain p.1).2 p hp]
        exact hicother p.1 hpne
    · intro p hp
      simp only [List.mem_cons] at hp
      rcases hp with hp | hp
      · subst hp
        exact hicself
      · rw [(hchain i).2 p hp]
        exact hicself
    · intro j
      by_cases hji : j = i
      · rw [hji, connsAt_decConn_self _ hb₃, (hchain i).1, hicself]
        omega
      · rw [connsAt_decConn_other _ hji, (hchain j).1]
        exact hicother j hji
    · intro h p hp
      simp only [List.mem_cons] at hp
      rcases hp with hp | hp
      · subst hp; exact hfaili
      · exact chain_unavail fails (lb.backends.length + 1) (incConn lb₁ i) i rs h p hp

/-- C6 counterexample: backend 0 (3 active connections) fails, backend 1
serves the retry. At both forwarding points backend 1's counter is still 0
(the claim demands it be incremented to 1 before the retry forward) and
backend 0's counter is still 4 (the claim demands its reservation be released,
back to 3, before the alternate is selected). -/
theorem claim_C6_counterexample :
    ((serveHTTP (fun j => j == 0)
        ⟨[⟨0, true, 3⟩, ⟨1, true, 0⟩], 0, .RoundRobin⟩ 0 []).outcome = .served 1) ∧
    ((serveHTTP (fun j => j == 0)
        ⟨[⟨0, true, 3⟩, ⟨1, true, 0⟩], 0, .RoundRobin⟩ 0 []).attempts.map
      (fun p => (p.1, connsAt p.2 0, connsAt p.2 1)) = [(0, 4, 0), (1, 4, 0)]) :=
  ⟨by decide, by decide⟩

/-- C6 witness: backend 0 fails its forward and is marked dead in the final
state of the request. -/
theorem claim_C6_witness :
    deadAt (serveHTTP (fun j => j == 0)
      ⟨[⟨0, true, 0⟩, ⟨1, true, 0⟩], 0, .RoundRobin⟩ 0 []).lb 0 :=
  (claim_C6_failure_path (fun j => j == 0)
    ⟨[⟨0, true, 0⟩, ⟨1, true, 0⟩], 0, .RoundRobin⟩ 0 [] 0 rfl rfl).1

/-! Health-check classification and reintegration. -/

theorem CheckBackendHealth_iff (p : ProbeResult) :
    CheckBackendHealth p = true ↔
      (p.connError = false ∧ p.elapsedSec < 5 ∧ p.status < 400) := by
  unfold CheckBackendHealth probeCompletes
  cases hc : p.connError with
  | true => simp
  | false =>
    by_cases he : 5 ≤ p.elapsedSec
    · simp [he]
    · simp [he]
      omega

theorem healthTickBackend_eq (b : Backend) (p : ProbeResult) :
    healthTickBackend b p = { b with alive := CheckBackendHealth p } := by
  unfold healthTickBackend
  by_cases h : b.alive = CheckBackendHealth p
  · simp only [h, ne_eq, not_true_eq_false, if_false]
    rw [← h]
  · simp [h]

theorem healthSweep_getElem (probes : Nat → ProbeResult) :
    ∀ (l : List Backend) (i k : Nat),
      (healthSweep probes l i)[k]? =
        Option.map (fun b => healthTickBackend b (probes (i + k))) l[k]?
  | [], i, k => by simp [healthSweep]
  | b :: rest, i, 0 => by simp [healthSweep]
  | b :: rest, i, k + 1 => by
      have h := healthSweep_getElem probes rest (i + 1) k
      have hidx : i + 1 + k = i + (k + 1) := by omega
      rw [hidx] at h
      simpa [healthSweep] using h

theorem runHealthChecksTick_getElem (lb : LB) (probes : Nat → ProbeResult) (k : Nat) :
    (runHealthChecksTick lb probes).backends[k]? =
      Option.map (fun b => { b with alive := CheckBackendHealth (probes k) })
        lb.backends[k]? := by
  unfold runHealthChecksTick
  have h := healthSweep_getElem probes lb.backends 0 k
  simp only [Nat.zero_add] at h
  rw [h]
  cases lb.backends[k]? with
  | none => rfl
  | some b => simp [healthTickBackend_eq]

theorem getRoundRobin_first_alive (bs : List Backend) (cur : Nat) (b : Backend)
    (hget : bs[cur % bs.length]? = some b) (halive : b.alive = true)
    (hlen : 0 < bs.length) :
    (getRoundRobinBackend bs cur).1 = some (cur % bs.length) := by
  unfold getRoundRobinBackend
  rw [if_neg (by omega)]
  obtain ⟨m, hm⟩ : ∃ m, bs.length = m + 1 := ⟨bs.length - 1, by omega⟩
  conv_lhs => rw [hm]
  rw [rrScan]
  simp [hget, halive]

/-- C8: the monitor classifies a backend alive exactly when the probe's
client.Get completes - no connection error and within the 5-second timeout -
with a status below 400; each tick rewrites every backend's recorded flag to
the fresh classification (writing only on change, which yields the same
state); and a previously dead backend whose probe succeeds is selectable on
the very next selection call: round robin starting at its index returns it. -/
theorem claim_C8_health_probe_classification :
    (∀ (p : ProbeResult), CheckBackendHealth p = true ↔
      (p.connError = false ∧ p.elapsedSec < 5 ∧ p.status < 400)) ∧
    (∀ (lb : LB) (probes : Nat → ProbeResult) (k : Nat) (b : Backend),
      lb.backends[k]? = some b →
      (runHealthChecksTick lb probes).backends[k]? =
        some { b with alive := CheckBackendHealth (probes k) }) ∧
    (∀ (lb : LB) (probes : Nat → ProbeResult) (k : Nat) (b : Backend),
      lb.backends[k]? = some b → b.alive = false →
      CheckBackendHealth (probes k) = true →
      (getRoundRobinBackend (runHealthChecksTick lb probes).backends k).1 = some k) := by
  refine ⟨CheckBackendHealth_iff, ?_, ?_⟩
  · intro lb probes k b hb
    rw [runHealthChecksTick_getElem, hb]
    rfl
  · intro lb probes k b hb _ hclass
    have hget : (runHealthChecksTick lb probes).backends[k]? =
        some { b with alive := CheckBackendHealth (probes k) } := by
      rw [runHealthChecksTick_getElem, hb]
      rfl
    have hlen : k < (runHealthChecksTick lb probes).backends.length :=
      lt_length_of_getElem? hget
    have hmod : k % (runHealthChecksTick lb probes).backends.length = k :=
      Nat.mod_eq_of_lt hlen
    have := getRoundRobin_first_alive (runHealthChecksTick lb probes).backends k
      { b with alive := CheckBackendHealth (probes k) } (by rw [hmod]; exact hget)
      (by simpa using hclass) (by omega)
    rwa [hmod] at this

/-- C8 witness: both backends dead, probe answers 200 in 1 second; after the
tick, backend 1 is alive again and the next round-robin selection from its
index returns it. -/
theorem claim_C8_witness :
    (getRoundRobinBackend (runHealthChecksTick
      ⟨[⟨0, false, 0⟩, ⟨1, false, 0⟩], 0, .RoundRobin⟩
      (fun _ => ⟨false, 1, 200⟩)).backends 1).1 = some 1 :=
  claim_C8_health_probe_classification.2.2
    ⟨[⟨0, false, 0⟩, ⟨1, false, 0⟩], 0, .RoundRobin⟩
    (fun _ => ⟨false, 1, 200⟩) 1 ⟨1, false, 0⟩ rfl rfl rfl

/-! RoundRobinAlgo (algorithms.go) versus the claims on scan bounds. -/

theorem rrAlgoLoop_dead_two (fuel : Nat) :
    (rrAlgoLoop [⟨0, false, 0⟩] (fuel + 2) 0 0).2 =
      (rrAlgoLoop [⟨0, false, 0⟩] fuel 2 0).2 + 2 := by
  have h1 : (1 : Nat) % U64 = 1 := Nat.mod_eq_of_lt (by norm_num [U64])
  have h2 : (2 : Nat) % U64 = 2 := Nat.mod_eq_of_lt (by norm_num [U64])
  rw [show fuel + 2 = (fuel + 1) + 1 from rfl, rrAlgoLoop]
  simp only [List.length_singleton, Nat.mod_one, List.getElem?_cons_zero,
    Bool.false_eq_true, if_false, Nat.zero_add, h1]
  rw [if_neg (by omega), rrAlgoLoop]
  simp only [List.length_singleton, Nat.mod_one, List.getElem?_cons_zero,
    Bool.false_eq_true, if_false, h2]
  rw [if_neg (by omega)]

/-- C3: the dispatcher's own selection methods do satisfy the claim - the
empty list and the all-dead list yield the nil sentinel within at most
len(backends) scanned candidates, and ServeHTTP answers 503 - but
RoundRobinAlgo.GetNextBackend (algorithms.go) does not: on the empty slice it
panics with a division by zero (modelled as the crash outcome), and on a
single dead backend its exit test current == start makes it scan at least two
(in fact 2^64) candidates, more than len(backends) = 1. -/
theorem claim_C3_all_dead_termination :
    (getRoundRobinBackend [] 0 = (none, 0)) ∧
    (getRoundRobinBackend [⟨0, false, 0⟩] 0 = (none, 1)) ∧
    (getLeastBusyBackend [⟨0, false, 0⟩] = none ∧ getLeastBusyBackend [] = none) ∧
    (getRandomBackend [⟨0, false, 0⟩] 0 = none ∧ getRandomBackend [] 0 = none) ∧
    ((serveHTTP (fun _ => false) ⟨[⟨0, false, 0⟩], 0, .RoundRobin⟩ 0 []).outcome =
      .unavailable) ∧
    (rrAlgoGetNext [] 0 = (.crash, 0)) ∧
    (2 ≤ (rrAlgoGetNext [⟨0, false, 0⟩] 0).2) := by
  refine ⟨by decide, by decide, ⟨by decide, by decide⟩, ⟨by decide, by decide⟩,
    by decide, by decide, ?_⟩
  have hU : U64 = (U64 - 2) + 2 := by norm_num [U64]
  unfold rrAlgoGetNext
  rw [if_neg (by simp)]
  rw [hU, rrAlgoLoop_dead_two]
  omega

/-! Startup behaviour on bad configuration. -/

/-- C9: config.MustLoad is fatal on an unreadable configuration, as claimed;
but NewLoadBalancer's construction loop only logs a url.Parse failure and
appends the backend anyway, so construction proceeds - with the second
configured address unparsable, both backends are constructed (the second with
the failed parse result) and the process goes on to serve. -/
theorem claim_C9_startup_errors :
    (mustLoad none = .fatal) ∧
    (newBackends [some 0, none] = [⟨some 0, true⟩, ⟨none, true⟩]) ∧
    ((newBackends [some 0, none]).length = 2) :=
  ⟨rfl, rfl, rfl⟩

end LoadBalancerModel
